import Mathlib

/-! # go-log-matrix: the path-aggregation tree of `main.go`

A shallow embedding of the `Node` tree of `src/main.go` (`Add`, `CreateChild`,
`GetChildByUrl`, `HasChildren`, `GetFirstCallTimestamp`, `GetLastCallTimestamp`,
`ArrayMinInt64`, `ArrayMaxInt64`, `flattenTree` and the insertion loop of `main`),
followed by theorems about it.

Modelling conventions.

* A Go `string` is a finite sequence of bytes: `GoString := List UInt8`.
* `strings.Split`, `strings.Join` and `strings.HasPrefix` belong to the Go standard
  library; they are modelled by their documented behaviour for a one-byte separator.
* Go `int` / `int64` values are `Int`.  No operation of the modelled code can overflow:
  `Count` is bounded by the number of `Add` calls (the length of a Go slice), `Level`
  by the number of pieces of a path, and timestamps are only stored and compared.
* The tree is built from freshly allocated, unshared nodes, so it is modelled as a
  value.  A `*Node` that points to a child of `n` is modelled by the index of that child
  in `n.Children`; a `*Node` that points into a tree is the list of child indices
  leading to it from the root.
* A Go `nil` slice and an empty slice behave alike in all modelled code (`len`, `range`
  and `append`), so both are the empty list.
* A run-time panic is an `Except.error`.
-/

namespace LogMatrix

/-- A Go string: a sequence of bytes. -/
abbrev GoString := List UInt8

/-- The bytes of a string literal (its UTF-8 encoding). -/
def str (s : String) : GoString := s.data.flatMap String.utf8EncodeChar

/-- The separator byte of `"/"`. -/
def slash : UInt8 := 47

/-- Go `strings.Split(s, sep)` for a one-byte separator: the substrings between the
separators; always at least one piece. -/
def Split (s : GoString) (sep : UInt8) : List GoString :=
  match s with
  | [] => [[]]
  | c :: cs =>
    if c = sep then [] :: Split cs sep
    else
      match Split cs sep with
      | [] => [[c]]
      | p :: ps => (c :: p) :: ps

/-- Go `strings.Join(elems, sep)` for a one-byte separator. -/
def Join (elems : List GoString) (sep : UInt8) : GoString :=
  match elems with
  | [] => []
  | [s] => s
  | s :: t :: rest => s ++ sep :: Join (t :: rest) sep

/-- Go `strings.HasPrefix(s, prefix)`. -/
def HasPrefix (s pre : GoString) : Bool := pre.isPrefixOf s

/-- The ways in which a run of the modelled code can fail to produce a value. -/
inductive Fault where
  /-- Go run-time panic: slice bounds out of range (`terms[0 : level+1]`). -/
  | sliceBounds
  /-- Model only: a child index that does not point into `Children`. -/
  | badPointer
  /-- Model only: the recursion budget of `AddFuel` is used up. -/
  | outOfFuel
  deriving DecidableEq, Repr

/-- Go `type Node struct`. -/
structure Node where
  Url : GoString
  Count : Int
  Level : Int
  CallTimestamps : List Int
  Children : List Node

/-- The root that `main` creates: `Node{"/", 0, 0, make([]int64, 0), make([]*Node, 0)}`. -/
def freshRoot : Node := ⟨str "/", 0, 0, [], []⟩

/-- Go `(n *Node) HasChildren`. -/
def HasChildren (n : Node) : Bool := decide (n.Children.length > 0)

/-- Go `(n *Node) CreateChild`.  Returns the node after the append together with the
pointer to the new child (its index in `Children`).  The slice expression
`terms[0 : level+1]` panics unless `0 ≤ level+1 ≤ cap(terms)`; the slice returned by
`strings.Split` has capacity equal to its length. -/
def CreateChild (n : Node) (calledUrl : GoString) : Except Fault (Node × Nat) :=
  let terms := Split calledUrl slash
  let level := n.Level + 1
  if 0 ≤ level + 1 ∧ level + 1 ≤ (terms.length : Int) then
    let terms := terms.take (level + 1).toNat
    let url := Join terms slash
    let child : Node := ⟨url, 0, level, [], []⟩
    .ok (⟨n.Url, n.Count, n.Level, n.CallTimestamps, n.Children ++ [child]⟩,
         n.Children.length)
  else
    .error .sliceBounds

/-- The `for _, child := range n.Children` loop of `GetChildByUrl`: the index of the
first child whose `Url` is a prefix of `calledUrl`. -/
def findChild (calledUrl : GoString) : List Node → Option Nat
  | [] => none
  | child :: rest =>
    if HasPrefix calledUrl child.Url then some 0
    else (findChild calledUrl rest).map (· + 1)

/-- Go `(n *Node) GetChildByUrl`.  Returns the node after the call together with the
pointer to the selected child (its index in `Children`). -/
def GetChildByUrl (n : Node) (calledUrl : GoString) : Except Fault (Node × Nat) :=
  if HasChildren n = false then
    CreateChild n calledUrl
  else
    match findChild calledUrl n.Children with
    | some i => .ok (n, i)
    | none => CreateChild n calledUrl

/-- Go `(n *Node) Add` with an explicit recursion budget. -/
def AddFuel : Nat → Node → GoString → Int → Except Fault Node
  | 0, _, _, _ => .error .outOfFuel
  | fuel + 1, n, calledUrl, timestamp =>
    let n1 : Node :=
      ⟨n.Url, n.Count + 1, n.Level, n.CallTimestamps ++ [timestamp], n.Children⟩
    let terms := Split calledUrl slash
    if (terms.length : Int) > n1.Level + 1 then
      match GetChildByUrl n1 calledUrl with
      | .error e => .error e
      | .ok (n2, i) =>
        match n2.Children[i]? with
        | none => .error .badPointer
        | some child =>
          match AddFuel fuel child calledUrl timestamp with
          | .error e => .error e
          | .ok child1 =>
            .ok ⟨n2.Url, n2.Count, n2.Level, n2.CallTimestamps, n2.Children.set i child1⟩
    else
      .ok n1

mutual
/-- Height of a tree: the number of edges on its longest downward path. -/
def Node.height : Node → Nat
  | ⟨_, _, _, _, cs⟩ => heightList cs
/-- One more than the largest height in a list of trees (`0` for the empty list). -/
def heightList : List Node → Nat
  | [] => 0
  | c :: cs => max (c.height + 1) (heightList cs)
end

/-- Go `(n *Node) Add`.  The budget is large enough for every tree and path
(`Add_fault`: the only fault
`Add` can return is the slice panic). -/
def Add (n : Node) (calledUrl : GoString) (timestamp : Int) : Except Fault Node :=
  AddFuel (n.height + (Split calledUrl slash).length + 3) n calledUrl timestamp

/-- Go `type LogItem struct`. -/
structure LogItem where
  Url : GoString
  UnixTimestamp : Int

/-- The loop of `main`: `for _, logItem := range logItems { root.Add(...) }`. -/
def addAll (root : Node) : List LogItem → Except Fault Node
  | [] => .ok root
  | logItem :: rest =>
    match Add root logItem.Url logItem.UnixTimestamp with
    | .error e => .error e
    | .ok root1 => addAll root1 rest

mutual
/-- Go `flattenTree`: the nodes the returned pointers point to, in order. -/
def flattenTree : Node → Int → List Node
  | ⟨url, count, level, ts, children⟩, maxLevel =>
    if maxLevel > -1 ∧ level > maxLevel then []
    else if HasChildren ⟨url, count, level, ts, children⟩ then
      ⟨url, count, level, ts, children⟩ :: flattenChildren children maxLevel
    else [⟨url, count, level, ts, children⟩]
/-- The `for _, child := range node.Children` loop of `flattenTree`. -/
def flattenChildren : List Node → Int → List Node
  | [], _ => []
  | child :: rest, maxLevel => flattenTree child maxLevel ++ flattenChildren rest maxLevel
end

/-- The node a pointer (a list of child indices, starting at `n`) leads to, if the
pointer is valid. -/
def nodeAt (n : Node) : List Nat → Option Node
  | [] => some n
  | i :: rest =>
    match n.Children[i]? with
    | none => none
    | some child => nodeAt child rest

mutual
/-- Number of nodes of a tree. -/
def Node.size : Node → Nat
  | ⟨_, _, _, _, cs⟩ => 1 + sizeList cs
/-- Number of nodes of a list of trees. -/
def sizeList : List Node → Nat
  | [] => 0
  | c :: cs => c.size + sizeList cs
end

mutual
/-- Go `flattenTree`, the returned pointers themselves: each is the list of child
indices leading from `node` to the yielded node (`flattenPtrs_deref` relates them to
the nodes of `flattenTree`). -/
def flattenPtrs : Node → Int → List (List Nat)
  | ⟨url, count, level, ts, children⟩, maxLevel =>
    if maxLevel > -1 ∧ level > maxLevel then []
    else if HasChildren ⟨url, count, level, ts, children⟩ then
      [] :: flattenChildrenPtrs children 0 maxLevel
    else [[]]
/-- The `range node.Children` loop of `flattenTree` from child index `i` on. -/
def flattenChildrenPtrs : List Node → Nat → Int → List (List Nat)
  | [], _, _ => []
  | child :: rest, i, maxLevel =>
    (flattenPtrs child maxLevel).map (i :: ·) ++ flattenChildrenPtrs rest (i + 1) maxLevel
end

/-- Pre-order on pointers: `a` is a proper ancestor of `b`, or at the first index where
they differ `a` goes into an earlier child than `b`. -/
def ptrBefore : List Nat → List Nat → Bool
  | [], [] => false
  | [], _ :: _ => true
  | _ :: _, [] => false
  | i :: a, j :: b => decide (i < j) || (i == j && ptrBefore a b)

/-- The per-node invariant of the trees that `Add` builds: the count equals the number
of timestamps, the level is not negative, every child is one level deeper, and no two
children share a `Url`. -/
def Local (n : Node) : Prop :=
  n.Count = n.CallTimestamps.length ∧ 0 ≤ n.Level ∧
  (∀ c ∈ n.Children, c.Level = n.Level + 1) ∧ (n.Children.map Node.Url).Nodup

/-- The property `P` holds at every node of the tree `n`. -/
def Node.All (P : Node → Prop) (n : Node) : Prop :=
  ∀ p m, nodeAt n p = some m → P m

/-- A recursion budget that suffices below the node `n` for a path of `len` pieces. -/
def fuelNeed (len : Nat) (n : Node) : Nat :=
  if n.Children.length = 0 then min ((len : Int) - n.Level).toNat (len + 2) + 1 else len + 3

/-- Scenario A, the node `/a/b/c`. -/
def scenarioA_nodeABC : Node := ⟨str "/a/b/c", 1, 3, [300], []⟩

/-- Scenario A, the node `/a/b`. -/
def scenarioA_nodeAB : Node := ⟨str "/a/b", 2, 2, [200, 300], [scenarioA_nodeABC]⟩

/-- Scenario A, the node `/a`. -/
def scenarioA_nodeA : Node := ⟨str "/a", 3, 1, [100, 200, 300], [scenarioA_nodeAB]⟩

/-- Scenario A, the root after the three insertions. -/
def scenarioA_root : Node := ⟨str "/", 3, 0, [100, 200, 300], [scenarioA_nodeA]⟩

/-- A root with three children; the second and the third both have a `Url` that is a
prefix of `/abc/d`, the second one not on a segment boundary. -/
def prefixNode : Node :=
  ⟨str "/", 2, 0, [7, 8],
    [⟨str "/x", 1, 1, [7], []⟩, ⟨str "/ab", 1, 1, [8], []⟩, ⟨str "/abc", 0, 1, [], []⟩]⟩

/-- A root with the single child `/a`. -/
def oneChildNode : Node := ⟨str "/", 1, 0, [5], [⟨str "/a", 1, 1, [5], []⟩]⟩

/-- A node of level -3 without children: the type `int` of `Level` admits it, although no
tree built from the fresh root contains such a node. -/
def levelMinus3Node : Node := ⟨str "/", 0, -3, [], []⟩

/-- A node of level -2 without children, the lowest level at which the slice
expression of `CreateChild` has a bound that is not negative. -/
def levelMinus2Node : Node := ⟨str "/", 0, -2, [], []⟩

/-- A chain `/`, `/a`, `/a/b` of levels 0, 1, 2. -/
def chainNode : Node :=
  ⟨str "/", 2, 0, [1, 2], [⟨str "/a", 2, 1, [1, 2], [⟨str "/a/b", 1, 2, [2], []⟩]⟩]⟩

/-- The `for key, value := range values` loop of `ArrayMinInt64`, from index `key` on,
with the current value of `min`. -/
def arrayMinLoop (min : Int) (key : Nat) : List Int → Int
  | [] => min
  | value :: rest =>
    arrayMinLoop (if key = 0 ∨ value < min then value else min) (key + 1) rest

/-- Go `ArrayMinInt64`: `var min int64` starts at 0. -/
def ArrayMinInt64 (values : List Int) : Int := arrayMinLoop 0 0 values

/-- The `for key, value := range values` loop of `ArrayMaxInt64`, from index `key` on,
with the current value of `max`. -/
def arrayMaxLoop (max : Int) (key : Nat) : List Int → Int
  | [] => max
  | value :: rest =>
    arrayMaxLoop (if key = 0 ∨ value > max then value else max) (key + 1) rest

/-- Go `ArrayMaxInt64`: `var max int64` starts at 0. -/
def ArrayMaxInt64 (values : List Int) : Int := arrayMaxLoop 0 0 values

/-- Go `(n *Node) GetFirstCallTimestamp`. -/
def GetFirstCallTimestamp (n : Node) : Int :=
  if n.CallTimestamps.length = 0 then 0 else ArrayMaxInt64 n.CallTimestamps

/-- Go `(n *Node) GetLastCallTimestamp`. -/
def GetLastCallTimestamp (n : Node) : Int :=
  if n.CallTimestamps.length = 0 then 0 else ArrayMinInt64 n.CallTimestamps

/-- The three ways in which a call `n.Add(u, t)` returns, as a relation between the
node before and after the call: the guard `len(terms) > n.Level + 1` fails (`stop`),
`GetChildByUrl` selects the existing child `i` (`found`), or `GetChildByUrl` creates a
child, whose slice expression is in bounds (`created`).  `AddFuel_step` shows that every
successful run of `AddFuel` is of this form. -/
inductive AddStep (u : GoString) (t : Int) : Node → Node → Prop
  | stop (n : Node) (h : ¬ ((Split u slash).length : Int) > n.Level + 1) :
      AddStep u t n ⟨n.Url, n.Count + 1, n.Level, n.CallTimestamps ++ [t], n.Children⟩
  | found (n : Node) (i : Nat) (c c1 : Node)
      (h : ((Split u slash).length : Int) > n.Level + 1)
      (hf : findChild u n.Children = some i) (hc : n.Children[i]? = some c)
      (hs : AddStep u t c c1) :
      AddStep u t n
        ⟨n.Url, n.Count + 1, n.Level, n.CallTimestamps ++ [t], n.Children.set i c1⟩
  | created (n : Node) (c1 : Node)
      (h : ((Split u slash).length : Int) > n.Level + 1)
      (hf : findChild u n.Children = none) (h0 : 0 ≤ n.Level + 1 + 1)
      (hs : AddStep u t
        ⟨Join ((Split u slash).take (n.Level + 1 + 1).toNat) slash, 0, n.Level + 1, [], []⟩
        c1) :
      AddStep u t n
        ⟨n.Url, n.Count + 1, n.Level, n.CallTimestamps ++ [t], n.Children ++ [c1]⟩

mutual
/-- Sum of `Count` over all nodes of a tree. -/
def Node.totalCount : Node → Int
  | ⟨_, count, _, _, cs⟩ => count + totalCountList cs
/-- Sum of `Count` over all nodes of a list of trees. -/
def totalCountList : List Node → Int
  | [] => 0
  | c :: cs => c.totalCount + totalCountList cs
end

/-! ## Strings -/

theorem Split_ne_nil (s : GoString) (sep : UInt8) : Split s sep ≠ [] := by
  induction s with
  | nil => simp [Split]
  | cons c cs ih =>
    unfold Split
    split
    · simp
    · split <;> simp

/-- Joining the pieces of a split gives the string back. -/
theorem Join_Split (s : GoString) (sep : UInt8) : Join (Split s sep) sep = s := by
  induction s with
  | nil => simp [Split, Join]
  | cons c cs ih =>
    unfold Split
    split
    · next h =>
      cases hs : Split cs sep with
      | nil => exact absurd hs (Split_ne_nil _ _)
      | cons p ps => rw [hs] at ih; simp [Join, ih, h]
    · cases hs : Split cs sep with
      | nil => exact absurd hs (Split_ne_nil _ _)
      | cons p ps =>
        rw [hs] at ih
        cases ps with
        | nil => simpa [Join] using ih
        | cons q qs => simp only [Join] at ih ⊢; simp [← ih]

theorem Join_take_isPre (l : List GoString) (sep : UInt8) (k : Nat) :
    Join (l.take k) sep <+: Join l sep := by
  induction l generalizing k with
  | nil => simp
  | cons s rest ih =>
    cases k with
    | zero => simp [Join]
    | succ k =>
      cases rest with
      | nil => simp
      | cons t rest =>
        cases k with
        | zero => simp [Join]
        | succ k =>
          have := ih (k + 1)
          simp only [List.take_succ_cons] at this ⊢
          simp only [Join]
          exact (List.prefix_append_right_inj s).2 ((List.prefix_cons_inj sep).2 this)

/-- The `Url` that `CreateChild` builds is a prefix of the called URL. -/
theorem HasPrefix_Join_take (u : GoString) (k : Nat) :
    HasPrefix u (Join ((Split u slash).take k) slash) = true := by
  unfold HasPrefix
  rw [List.isPrefixOf_iff_prefix]
  have := Join_take_isPre (Split u slash) slash k
  rwa [Join_Split] at this

/-! ## Trees and pointers -/

theorem Node.induct2 {P : Node → Prop} {Q : List Node → Prop}
    (hn : ∀ url cnt lvl ts cs, Q cs → P ⟨url, cnt, lvl, ts, cs⟩) (h0 : Q [])
    (hc : ∀ c cs, P c → Q cs → Q (c :: cs)) (n : Node) : P n :=
  Node.rec (motive_1 := P) (motive_2 := Q) hn h0 hc n

theorem All_iff (P : Node → Prop) (n : Node) :
    n.All P ↔ P n ∧ ∀ c ∈ n.Children, c.All P := by
  constructor
  · intro h
    refine ⟨h [] n rfl, ?_⟩
    intro c hc a m hm
    obtain ⟨i, hi, rfl⟩ := List.getElem_of_mem hc
    apply h (i :: a) m
    simp [nodeAt, List.getElem?_eq_getElem hi, hm]
  · rintro ⟨h0, hc⟩ a m hm
    cases a with
    | nil => simp [nodeAt] at hm; subst hm; exact h0
    | cons i rest =>
      simp only [nodeAt] at hm
      cases hci : n.Children[i]? with
      | none => simp [hci] at hm
      | some c =>
        rw [hci] at hm
        exact hc c (List.getElem?_mem hci) rest m hm

theorem heightList_le {c : Node} {cs : List Node} (h : c ∈ cs) :
    c.height + 1 ≤ heightList cs := by
  induction cs with
  | nil => simp at h
  | cons d ds ih =>
    simp only [heightList]
    rcases List.mem_cons.1 h with rfl | h
    · exact le_max_left _ _
    · exact le_trans (ih h) (le_max_right _ _)

theorem height_child_lt {c n : Node} (h : c ∈ n.Children) : c.height + 1 ≤ n.height := by
  cases n with
  | mk url cnt lvl ts cs => simpa [Node.height] using heightList_le h

theorem map_set_same {α β : Type} (f : α → β) {l : List α} {i : Nat} {c c1 : α}
    (h : l[i]? = some c) (hf : f c1 = f c) : (l.set i c1).map f = l.map f := by
  induction l generalizing i with
  | nil => simp
  | cons x xs ih =>
    cases i with
    | zero => simp at h; subst h; simp [hf]
    | succ i => simp at h; simp [ih h]

theorem set_concat_length {α : Type} (l : List α) (x y : α) :
    (l ++ [x]).set l.length y = l ++ [y] := by
  induction l with
  | nil => simp
  | cons a l ih => simp [ih]

/-! ## Child resolution -/

theorem findChild_some {u : GoString} {cs : List Node} {i : Nat}
    (h : findChild u cs = some i) :
    ∃ c, cs[i]? = some c ∧ HasPrefix u c.Url = true ∧
      ∀ j d, j < i → cs[j]? = some d → HasPrefix u d.Url = false := by
  induction cs generalizing i with
  | nil => simp [findChild] at h
  | cons c cs ih =>
    simp only [findChild] at h
    split at h
    · next hp =>
      cases h
      exact ⟨c, by simp, hp, fun j d hj => absurd hj (Nat.not_lt_zero _)⟩
    · next hp =>
      cases hf : findChild u cs with
      | none => simp [hf] at h
      | some k =>
        simp [hf] at h
        subst h
        obtain ⟨x, hx, hpx, hlt⟩ := ih hf
        refine ⟨x, by simpa using hx, hpx, ?_⟩
        intro j d hj hd
        cases j with
        | zero => simp at hd; subst hd; simpa using hp
        | succ j => exact hlt j d (by omega) (by simpa using hd)

theorem findChild_none {u : GoString} {cs : List Node} :
    findChild u cs = none ↔ ∀ c ∈ cs, HasPrefix u c.Url = false := by
  induction cs with
  | nil => simp [findChild]
  | cons c cs ih =>
    simp only [findChild, List.mem_cons, forall_eq_or_imp]
    split
    · next hp => simp [hp]
    · next hp => simp [hp, ih]

theorem GetChildByUrl_of_findChild_some {n : Node} {u : GoString} {i : Nat}
    (h : findChild u n.Children = some i) : GetChildByUrl n u = .ok (n, i) := by
  unfold GetChildByUrl HasChildren
  cases hc : n.Children with
  | nil => simp [hc, findChild] at h
  | cons c cs => rw [hc] at h; simp [h]

theorem GetChildByUrl_of_findChild_none {n : Node} {u : GoString}
    (h : findChild u n.Children = none) : GetChildByUrl n u = CreateChild n u := by
  unfold GetChildByUrl
  split
  · rfl
  · simp [h]

theorem CreateChild_ok {n : Node} {u : GoString} (h0 : 0 ≤ n.Level + 1 + 1)
    (h1 : n.Level + 1 + 1 ≤ ((Split u slash).length : Int)) :
    CreateChild n u = .ok
      (⟨n.Url, n.Count, n.Level, n.CallTimestamps, n.Children ++
          [⟨Join ((Split u slash).take (n.Level + 1 + 1).toNat) slash, 0, n.Level + 1, [], []⟩]⟩,
        n.Children.length) := by
  unfold CreateChild
  simp [h0, h1]


/-! ## `Add` on built trees -/

/-- One `Add` keeps the invariant, succeeds with any budget above the height of the
tree plus the number of path pieces still to descend, and changes neither `Url` nor
`Level` of the node while raising its `Count` by one. -/
theorem AddFuel_good (u : GoString) (t : Int) : ∀ (f : Nat) (n : Node), n.All Local →
    n.height + (((Split u slash).length : Int) - n.Level).toNat + 1 ≤ f →
    ∃ n1, AddFuel f n u t = .ok n1 ∧ n1.All Local ∧ n1.Url = n.Url ∧ n1.Level = n.Level ∧
      n1.Count = n.Count + 1 := by
  intro f
  induction f with
  | zero => intro n _ hf; omega
  | succ f ih =>
    intro n hgood hf
    obtain ⟨⟨hcnt, hlvl, hch, hnd⟩, hkids⟩ := (All_iff Local n).1 hgood
    simp only [AddFuel]
    split
    · next hguard =>
      cases hfc : findChild u n.Children with
      | some i =>
        obtain ⟨c, hci, hpc, -⟩ := findChild_some hfc
        have hcmem := List.getElem?_mem hci
        have hh := height_child_lt hcmem
        have hl := hch c hcmem
        obtain ⟨c1, hc1, hgood1, hurl, hlev, -⟩ := ih c (hkids c hcmem) (by omega)
        rw [GetChildByUrl_of_findChild_some (n := ⟨_, _, _, _, _⟩) hfc]
        simp only [hci, hc1]
        refine ⟨_, rfl, ?_, rfl, rfl, rfl⟩
        rw [All_iff]
        refine ⟨⟨by simp [hcnt], hlvl, ?_, ?_⟩, ?_⟩
        · intro d hd
          rcases List.mem_or_eq_of_mem_set hd with hd | rfl
          · exact hch d hd
          · simpa [hlev] using hl
        · simpa [map_set_same Node.Url hci hurl] using hnd
        · intro d hd
          rcases List.mem_or_eq_of_mem_set hd with hd | rfl
          · exact hkids d hd
          · exact hgood1
      | none =>
        have hno := findChild_none.1 hfc
        rw [GetChildByUrl_of_findChild_none (n := ⟨_, _, _, _, _⟩) hfc,
          CreateChild_ok (n := ⟨_, _, _, _, _⟩) (by simp; omega) (by simp at hguard ⊢; omega)]
        simp only [List.getElem?_concat_length]
        obtain ⟨c1, hc1, hgood1, hurl, hlev, -⟩ :=
          ih ⟨Join ((Split u slash).take (n.Level + 1 + 1).toNat) slash, 0, n.Level + 1, [], []⟩
            (by
              rw [All_iff]
              refine ⟨⟨by simp, by simp; omega, by simp, by simp⟩, by simp⟩)
            (by simp [Node.height, heightList] at hf ⊢; omega)
        simp only [hc1, set_concat_length]
        refine ⟨_, rfl, ?_, rfl, rfl, rfl⟩
        rw [All_iff]
        refine ⟨⟨by simp [hcnt], hlvl, ?_, ?_⟩, ?_⟩
        · intro d hd
          rcases List.mem_append.1 hd with hd | hd
          · exact hch d hd
          · simp at hd; subst hd; simpa using hlev
        · simp only [List.map_append, List.map_cons, List.map_nil]
          rw [List.nodup_append]
          refine ⟨hnd, by simp, ?_⟩
          intro x hx hx1
          simp at hx1
          subst hx1
          obtain ⟨d, hd, hdu⟩ := List.mem_map.1 hx
          have := hno d hd
          rw [hdu, hurl] at this
          simp [HasPrefix_Join_take] at this
        · intro d hd
          rcases List.mem_append.1 hd with hd | hd
          · exact hkids d hd
          · simp at hd; subst hd; exact hgood1
    · refine ⟨_, rfl, ?_, rfl, rfl, rfl⟩
      rw [All_iff]
      exact ⟨⟨by simp [hcnt], hlvl, hch, hnd⟩, hkids⟩

theorem Add_good {n : Node} (u : GoString) (t : Int) (h : n.All Local) :
    ∃ n1, Add n u t = .ok n1 ∧ n1.All Local ∧ n1.Url = n.Url ∧ n1.Level = n.Level ∧
      n1.Count = n.Count + 1 := by
  have hl : 0 ≤ n.Level := ((All_iff Local n).1 h).1.2.1
  exact AddFuel_good u t _ n h (by omega)

theorem addAll_good (xs : List LogItem) : ∀ n : Node, n.All Local →
    ∃ n1, addAll n xs = .ok n1 ∧ n1.All Local ∧ n1.Url = n.Url ∧ n1.Level = n.Level ∧
      n1.Count = n.Count + xs.length := by
  induction xs with
  | nil => intro n h; exact ⟨n, rfl, h, rfl, rfl, by simp⟩
  | cons x xs ih =>
    intro n h
    obtain ⟨n1, h1, hg1, hu1, hl1, hc1⟩ := Add_good x.Url x.UnixTimestamp h
    obtain ⟨n2, h2, hg2, hu2, hl2, hc2⟩ := ih n1 hg1
    refine ⟨n2, by simp [addAll, h1, h2], hg2, hu2.trans hu1, hl2.trans hl1, ?_⟩
    rw [hc2, hc1]; simp; ring

theorem freshRoot_good : freshRoot.All Local := by
  rw [All_iff]
  exact ⟨⟨by simp [freshRoot], by simp [freshRoot], by simp [freshRoot], by simp [freshRoot]⟩,
    by simp [freshRoot]⟩

/-! ## The recursion budget of `Add` is never used up -/

theorem fuelNeed_le (len : Nat) (n : Node) : fuelNeed len n ≤ len + 3 := by
  unfold fuelNeed
  split <;> omega

theorem AddFuel_fault (u : GoString) (t : Int) : ∀ (f : Nat) (n : Node),
    n.height + fuelNeed (Split u slash).length n ≤ f →
    ∀ e, AddFuel f n u t = .error e → e = .sliceBounds := by
  intro f
  induction f with
  | zero =>
    intro n hf
    have : 1 ≤ fuelNeed (Split u slash).length n := by unfold fuelNeed; split <;> omega
    omega
  | succ f ih =>
    intro n hf e he
    simp only [AddFuel] at he
    split at he
    · next hguard =>
      cases hfc : findChild u n.Children with
      | some i =>
        obtain ⟨c, hci, -, -⟩ := findChild_some hfc
        have hcmem := List.getElem?_mem hci
        have hh := height_child_lt hcmem
        have hne : n.Children.length ≠ 0 := by
          intro h0
          rw [List.length_eq_zero] at h0
          simp [h0] at hcmem
        have hK : fuelNeed (Split u slash).length n = (Split u slash).length + 3 := by
          simp [fuelNeed, hne]
        have := fuelNeed_le (Split u slash).length c
        rw [GetChildByUrl_of_findChild_some (n := ⟨_, _, _, _, _⟩) hfc] at he
        simp only [hci] at he
        cases hr : AddFuel f c u t with
        | error e1 =>
          simp only [hr] at he
          cases he
          exact ih c (by omega) _ hr
        | ok c1 => simp [hr] at he
      | none =>
        rw [GetChildByUrl_of_findChild_none (n := ⟨_, _, _, _, _⟩) hfc] at he
        by_cases hb : 0 ≤ n.Level + 1 + 1 ∧ n.Level + 1 + 1 ≤ ((Split u slash).length : Int)
        · rw [CreateChild_ok (n := ⟨_, _, _, _, _⟩) hb.1 hb.2] at he
          simp only [List.getElem?_concat_length] at he
          cases hr : AddFuel f
              ⟨Join ((Split u slash).take (n.Level + 1 + 1).toNat) slash, 0, n.Level + 1, [], []⟩
              u t with
          | error e1 =>
            simp only [hr] at he
            cases he
            refine ih _ ?_ _ hr
            simp only [Node.height, heightList, fuelNeed, List.length_nil, if_true]
            by_cases hleaf : n.Children.length = 0
            · simp only [fuelNeed, hleaf, if_true] at hf
              omega
            · have h1 : 1 ≤ n.height := by
                cases hcs : n.Children with
                | nil => simp [hcs] at hleaf
                | cons c cs =>
                  have := height_child_lt (c := c) (n := n) (by simp [hcs])
                  omega
              simp only [fuelNeed, hleaf, if_false] at hf
              omega
          | ok c1 => simp [hr] at he
        · unfold CreateChild at he
          simp only [hb, if_false] at he
          cases he
          rfl
    · cases he

/-- On every tree and every path, the only fault `Add` can return is the slice panic of
`CreateChild`: the budget is never used up and every child pointer is valid. -/
theorem Add_fault (n : Node) (u : GoString) (t : Int) (e : Fault)
    (h : Add n u t = .error e) : e = .sliceBounds :=
  AddFuel_fault u t _ n (by have := fuelNeed_le (Split u slash).length n; omega) e h

/-! ## `flattenTree` -/

/-- The `HasChildren` test of `flattenTree` only skips an empty loop. -/
theorem flattenTree_mk (url : GoString) (cnt lvl : Int) (ts : List Int) (cs : List Node)
    (d : Int) :
    flattenTree ⟨url, cnt, lvl, ts, cs⟩ d =
      if d > -1 ∧ lvl > d then [] else ⟨url, cnt, lvl, ts, cs⟩ :: flattenChildren cs d := by
  simp only [flattenTree]
  split
  · rfl
  · split
    · rfl
    · next h =>
      have : cs = [] := by
        cases cs with
        | nil => rfl
        | cons c cs => simp [HasChildren] at h
      subst this
      simp [flattenChildren]

theorem flattenPtrs_mk (url : GoString) (cnt lvl : Int) (ts : List Int) (cs : List Node)
    (d : Int) :
    flattenPtrs ⟨url, cnt, lvl, ts, cs⟩ d =
      if d > -1 ∧ lvl > d then [] else [] :: flattenChildrenPtrs cs 0 d := by
  simp only [flattenPtrs]
  split
  · rfl
  · split
    · rfl
    · next h =>
      have : cs = [] := by
        cases cs with
        | nil => rfl
        | cons c cs => simp [HasChildren] at h
      subst this
      simp [flattenChildrenPtrs]

theorem flatten_level_le_aux (d : Int) (hd : 0 ≤ d) (n : Node) :
    ∀ m ∈ flattenTree n d, m.Level ≤ d := by
  refine Node.induct2 (P := fun n => ∀ m ∈ flattenTree n d, m.Level ≤ d)
    (Q := fun cs => ∀ m ∈ flattenChildren cs d, m.Level ≤ d) ?_ ?_ ?_ n
  · intro url cnt lvl ts cs ih m hm
    simp only [flattenTree_mk] at hm
    split at hm
    · simp at hm
    · next hg =>
      rcases List.mem_cons.1 hm with rfl | hm
      · simp at hg ⊢; omega
      · exact ih m hm
  · intro m hm; simp [flattenChildren] at hm
  · intro c cs ihc ihcs m hm
    simp only [flattenChildren, List.mem_append] at hm
    rcases hm with hm | hm
    · exact ihc m hm
    · exact ihcs m hm

theorem flatten_all_length (n : Node) : (flattenTree n (-1)).length = n.size := by
  refine Node.induct2 (P := fun n => (flattenTree n (-1)).length = n.size)
    (Q := fun cs => (flattenChildren cs (-1)).length = sizeList cs) ?_ ?_ ?_ n
  · intro url cnt lvl ts cs ih
    simp [flattenTree_mk, Node.size, ih]; omega
  · simp [flattenChildren, sizeList]
  · intro c cs ihc ihcs
    simp [flattenChildren, sizeList, ihc, ihcs]

/-- Following the pointers of `flattenPtrs` yields the nodes of `flattenTree`, in the
same order. -/
theorem flattenPtrs_deref (d : Int) (n : Node) :
    (flattenPtrs n d).map (nodeAt n) = (flattenTree n d).map some := by
  refine Node.induct2
    (P := fun n => (flattenPtrs n d).map (nodeAt n) = (flattenTree n d).map some)
    (Q := fun cs => ∀ (i : Nat) (g : List Nat → Option Node),
      (∀ k c rest, cs[k]? = some c → g ((i + k) :: rest) = nodeAt c rest) →
      (flattenChildrenPtrs cs i d).map g = (flattenChildren cs d).map some) ?_ ?_ ?_ n
  · intro url cnt lvl ts cs ih
    simp only [flattenPtrs_mk, flattenTree_mk]
    split
    · rfl
    · simp only [List.map_cons, nodeAt]
      congr 1
      apply ih 0
      intro k c rest hk
      simp [nodeAt, hk]
  · intro i g _; simp [flattenChildrenPtrs, flattenChildren]
  · intro c cs ihc ihcs i g hg
    simp only [flattenChildrenPtrs, flattenChildren, List.map_append, List.map_map]
    congr 1
    · rw [← ihc]
      apply List.map_congr_left
      intro a _
      simpa using hg 0 c a (by simp)
    · apply ihcs (i + 1)
      intro k c1 rest hk
      have := hg (k + 1) c1 rest (by simpa using hk)
      rwa [show i + 1 + k = i + (k + 1) by omega]

theorem flattenPtrs_pairwise (d : Int) (n : Node) :
    (flattenPtrs n d).Pairwise (fun a b => ptrBefore a b = true) := by
  refine Node.induct2
    (P := fun n => (flattenPtrs n d).Pairwise (fun a b => ptrBefore a b = true))
    (Q := fun cs => ∀ i : Nat,
      (flattenChildrenPtrs cs i d).Pairwise (fun a b => ptrBefore a b = true) ∧
      ∀ x ∈ flattenChildrenPtrs cs i d, ∃ k a, x = k :: a ∧ i ≤ k) ?_ ?_ ?_ n
  · intro url cnt lvl ts cs ih
    simp only [flattenPtrs_mk]
    split
    · exact List.Pairwise.nil
    · refine List.Pairwise.cons ?_ (ih 0).1
      intro x hx
      obtain ⟨k, a, rfl, -⟩ := (ih 0).2 x hx
      rfl
  · intro i; simp [flattenChildrenPtrs]
  · intro c cs ihc ihcs i
    simp only [flattenChildrenPtrs]
    constructor
    · rw [List.pairwise_append]
      refine ⟨?_, (ihcs (i + 1)).1, ?_⟩
      · rw [List.pairwise_map]
        exact ihc.imp (fun h => by simpa [ptrBefore] using h)
      · intro x hx y hy
        obtain ⟨a, -, rfl⟩ := List.mem_map.1 hx
        obtain ⟨k, b, rfl, hk⟩ := (ihcs (i + 1)).2 y hy
        simp [ptrBefore]
        left; omega
    · intro x hx
      rcases List.mem_append.1 hx with hx | hx
      · obtain ⟨a, -, rfl⟩ := List.mem_map.1 hx
        exact ⟨i, a, rfl, le_refl _⟩
      · obtain ⟨k, b, rfl, hk⟩ := (ihcs (i + 1)).2 x hx
        exact ⟨k, b, rfl, by omega⟩

theorem ptrBefore_irrefl (a : List Nat) : ptrBefore a a = false := by
  induction a with
  | nil => rfl
  | cons i a ih => simp [ptrBefore, ih]

theorem ptrBefore_asymm : ∀ a b : List Nat, ptrBefore a b = true → ptrBefore b a = false
  | [], [], h => by simp [ptrBefore] at h
  | [], _ :: _, _ => rfl
  | _ :: _, [], h => by simp [ptrBefore] at h
  | i :: a, j :: b, h => by
    simp only [ptrBefore, Bool.or_eq_true, decide_eq_true_eq, Bool.and_eq_true, beq_iff_eq] at h
    simp only [ptrBefore, Bool.or_eq_false_iff, decide_eq_false_iff_not, Bool.and_eq_false_imp,
      beq_iff_eq]
    rcases h with h | ⟨rfl, h⟩
    · exact ⟨by omega, fun hji => by omega⟩
    · exact ⟨by omega, fun _ => ptrBefore_asymm a b h⟩

theorem ptrBefore_descendant (a : List Nat) (k : Nat) (r : List Nat) :
    ptrBefore a (a ++ k :: r) = true := by
  induction a with
  | nil => rfl
  | cons i a ih => simp [ptrBefore, ih]

theorem ptrBefore_sibling (p : List Nat) {k l : Nat} (r s : List Nat) (h : k < l) :
    ptrBefore (p ++ k :: r) (p ++ l :: s) = true := by
  induction p with
  | nil => simp [ptrBefore, h]
  | cons i p ih => simp [ptrBefore, ih]

theorem flattenPtrs_index_lt (d : Int) (n : Node) {i j : Nat} {a b : List Nat}
    (hi : (flattenPtrs n d)[i]? = some a) (hj : (flattenPtrs n d)[j]? = some b)
    (hab : ptrBefore a b = true) : i < j := by
  by_contra hij
  obtain ⟨hi1, hi2⟩ := List.getElem?_eq_some.1 hi
  obtain ⟨hj1, hj2⟩ := List.getElem?_eq_some.1 hj
  rcases Nat.lt_or_eq_of_le (Nat.le_of_not_lt hij) with hlt | heq
  · have := List.pairwise_iff_getElem.1 (flattenPtrs_pairwise d n) j i hj1 hi1 hlt
    rw [hi2, hj2] at this
    rw [ptrBefore_asymm a b hab] at this
    cases this
  · subst heq
    rw [hi] at hj
    cases hj
    rw [ptrBefore_irrefl] at hab
    cases hab

theorem flattenPtrs_nodup (d : Int) (n : Node) : (flattenPtrs n d).Nodup := by
  refine (flattenPtrs_pairwise d n).imp ?_
  intro a b h hab
  subst hab
  simp [ptrBefore_irrefl] at h

theorem flattenPtrs_all_mem (n : Node) :
    ∀ a m, nodeAt n a = some m → a ∈ flattenPtrs n (-1) := by
  refine Node.induct2 (P := fun n => ∀ a m, nodeAt n a = some m → a ∈ flattenPtrs n (-1))
    (Q := fun cs => ∀ (i k : Nat) (c : Node) (rest : List Nat) (m : Node), cs[k]? = some c →
      nodeAt c rest = some m → (i + k) :: rest ∈ flattenChildrenPtrs cs i (-1)) ?_ ?_ ?_ n
  · intro url cnt lvl ts cs ih a m hm
    simp only [flattenPtrs_mk]
    rw [if_neg (by simp)]
    cases a with
    | nil => simp
    | cons k rest =>
      simp only [nodeAt] at hm
      cases hk : cs[k]? with
      | none => simp [hk] at hm
      | some c =>
        simp only [hk] at hm
        have := ih 0 k c rest m hk hm
        simpa using this
  · intro i k c rest m hk; simp at hk
  · intro c cs ihc ihcs i k c1 rest m hk hm
    simp only [flattenChildrenPtrs, List.mem_append]
    cases k with
    | zero =>
      simp at hk; subst hk
      left
      simpa using ihc rest m hm
    | succ k =>
      right
      have := ihcs (i + 1) k c1 rest m (by simpa using hk) hm
      rwa [show i + 1 + k = i + (k + 1) by omega] at this

/-! ## Scenario A, step by step -/

theorem scenarioA_step1 :
    Add freshRoot (str "/a") 100
      = .ok ⟨str "/", 1, 0, [100], [⟨str "/a", 1, 1, [100], []⟩]⟩ := by rfl

theorem scenarioA_step2 :
    Add ⟨str "/", 1, 0, [100], [⟨str "/a", 1, 1, [100], []⟩]⟩ (str "/a/b") 200
      = .ok ⟨str "/", 2, 0, [100, 200],
          [⟨str "/a", 2, 1, [100, 200], [⟨str "/a/b", 1, 2, [200], []⟩]⟩]⟩ := by rfl

theorem scenarioA_step3 :
    Add ⟨str "/", 2, 0, [100, 200],
          [⟨str "/a", 2, 1, [100, 200], [⟨str "/a/b", 1, 2, [200], []⟩]⟩]⟩ (str "/a/b/c") 300
      = .ok scenarioA_root := by rfl

/-! ## The claims -/

/-- Claim C1. For every finite sequence of `N` log items (any path strings, any
timestamps), the insertion loop of `main`, run on the fresh root, terminates without a
fault and leaves a root whose `Count` is `N`. -/
theorem root_count_eq_observations (logItems : List LogItem) :
    ∃ root, addAll freshRoot logItems = .ok root ∧ root.Count = logItems.length := by
  obtain ⟨r, hr, -, -, -, hc⟩ := addAll_good logItems freshRoot freshRoot_good
  exact ⟨r, hr, by simpa [freshRoot] using hc⟩

/-- Claim C2. In the tree built from the fresh root by any sequence of `Add` calls, every
node (the root and every descendant, reached by any valid pointer `p`) has
`Count` equal to the length of `CallTimestamps`. -/
theorem count_eq_len_timestamps (logItems : List LogItem) :
    ∃ root, addAll freshRoot logItems = .ok root ∧
      ∀ p m, nodeAt root p = some m → m.Count = m.CallTimestamps.length := by
  obtain ⟨r, hr, hg, -⟩ := addAll_good logItems freshRoot freshRoot_good
  exact ⟨r, hr, fun p m hm => (hg p m hm).1⟩

/-- Claim C3. In the tree built from the fresh root by any sequence of `Add` calls, the
root has `Level` 0 and, for every node `parent` of the tree and every `child` in its
`Children`, `child.Level = parent.Level + 1`. -/
theorem child_level_succ (logItems : List LogItem) :
    ∃ root, addAll freshRoot logItems = .ok root ∧ root.Level = 0 ∧
      ∀ p parent, nodeAt root p = some parent →
        ∀ child ∈ parent.Children, child.Level = parent.Level + 1 := by
  obtain ⟨r, hr, hg, -, hl, -⟩ := addAll_good logItems freshRoot freshRoot_good
  exact ⟨r, hr, by simpa [freshRoot] using hl, fun p m hm => (hg p m hm).2.2.1⟩

/-- Claim C4 (Scenario A). After `Add("/a", 100)`, `Add("/a/b", 200)`,
`Add("/a/b/c", 300)` on a fresh root the tree is the chain
root, `/a`, `/a/b`, `/a/b/c` with counts 3, 3, 2, 1, and `flattenTree(root, 1)` is the
two-element list of the root and the node `/a` (pointers `[]` and `[0]`). -/
theorem scenarioA_counts_and_flatten :
    addAll freshRoot [⟨str "/a", 100⟩, ⟨str "/a/b", 200⟩, ⟨str "/a/b/c", 300⟩]
      = .ok scenarioA_root ∧
    (scenarioA_root.Url = str "/" ∧ scenarioA_root.Count = 3 ∧
      scenarioA_root.Children = [scenarioA_nodeA]) ∧
    (scenarioA_nodeA.Url = str "/a" ∧ scenarioA_nodeA.Count = 3 ∧
      scenarioA_nodeA.Children = [scenarioA_nodeAB]) ∧
    (scenarioA_nodeAB.Url = str "/a/b" ∧ scenarioA_nodeAB.Count = 2 ∧
      scenarioA_nodeAB.Children = [scenarioA_nodeABC]) ∧
    (scenarioA_nodeABC.Url = str "/a/b/c" ∧ scenarioA_nodeABC.Count = 1 ∧
      scenarioA_nodeABC.Children = []) ∧
    flattenTree scenarioA_root 1 = [scenarioA_root, scenarioA_nodeA] ∧
    flattenPtrs scenarioA_root 1 = [[], [0]] := by
  refine ⟨?_, ⟨rfl, rfl, rfl⟩, ⟨rfl, rfl, rfl⟩, ⟨rfl, rfl, rfl⟩, ⟨rfl, rfl, rfl⟩, by rfl, by rfl⟩
  simp only [addAll, scenarioA_step1, scenarioA_step2, scenarioA_step3]

/-- Claim C5. If some child of `n` has a `Url` that is a string prefix of `u` (so
`Children` is not empty), `GetChildByUrl(u)` returns the pointer `i` to the first such
child in `Children` order and leaves `n`, hence its `Children` list, unchanged; nothing
is required of segment boundaries. -/
theorem GetChildByUrl_first_prefix_child (n : Node) (u : GoString) (c : Node)
    (hc : c ∈ n.Children) (hp : HasPrefix u c.Url = true) :
    ∃ i first, GetChildByUrl n u = .ok (n, i) ∧ n.Children[i]? = some first ∧
      HasPrefix u first.Url = true ∧
      ∀ j d, j < i → n.Children[j]? = some d → HasPrefix u d.Url = false := by
  cases hfc : findChild u n.Children with
  | none =>
    have := findChild_none.1 hfc c hc
    rw [hp] at this
    cases this
  | some i =>
    obtain ⟨first, h1, h2, h3⟩ := findChild_some hfc
    exact ⟨i, first, GetChildByUrl_of_findChild_some hfc, h1, h2, h3⟩

/-- Witness for C5: among the children `/x`, `/ab`, `/abc` the call with `/abc/d` has a
prefix child (`/abc`), so the theorem applies; the child returned is the first prefix
child, `/ab` at index 1. -/
theorem GetChildByUrl_first_prefix_child_witness :
    GetChildByUrl prefixNode (str "/abc/d") = .ok (prefixNode, 1) ∧
    ∃ i first, GetChildByUrl prefixNode (str "/abc/d") = .ok (prefixNode, i) ∧
      prefixNode.Children[i]? = some first ∧
      HasPrefix (str "/abc/d") first.Url = true ∧
      ∀ j d, j < i → prefixNode.Children[j]? = some d →
        HasPrefix (str "/abc/d") d.Url = false :=
  ⟨by rfl,
    GetChildByUrl_first_prefix_child prefixNode (str "/abc/d") ⟨str "/abc", 0, 1, [], []⟩
      (List.Mem.tail _ (List.Mem.tail _ (List.Mem.head _))) (by decide)⟩

/-- Counterexample to C6 as stated: the node of level -3 without children and the empty
URL meet the conditions of the claim (the split has one piece, more than `-3 + 1`, and
no child has a `Url` that is a prefix), yet `GetChildByUrl` does not append a child: the
slice expression `terms[0 : -1]` of `CreateChild` panics. -/
theorem GetChildByUrl_level_minus3_panics :
    ((Split (str "") slash).length : Int) > levelMinus3Node.Level + 1 ∧
    (∀ c ∈ levelMinus3Node.Children, HasPrefix (str "") c.Url = false) ∧
    GetChildByUrl levelMinus3Node (str "") = .error .sliceBounds ∧
    ¬ ∃ r, GetChildByUrl levelMinus3Node (str "") = .ok r := by
  have h : GetChildByUrl levelMinus3Node (str "") = .error .sliceBounds := by rfl
  refine ⟨by decide, by simp [levelMinus3Node], h, ?_⟩
  rintro ⟨r, hr⟩
  rw [h] at hr
  cases hr

/-- Claim C6, amended. For a node `n` of level at least -2 and a URL `u` that splits into
more than `n.Level + 1` pieces: if no child of `n` has a `Url` that is a prefix of `u`
(in particular if `n` has no children), `GetChildByUrl(u)` appends exactly one child at
the end of `Children` and returns the pointer to it; that child has the first
`n.Level + 2` pieces of `u` joined by `/` as `Url`, level `n.Level + 1`, count 0, no
timestamps and no children; everything else of `n` is unchanged. -/
theorem GetChildByUrl_creates_child (n : Node) (u : GoString) (hlevel : -2 ≤ n.Level)
    (hlen : ((Split u slash).length : Int) > n.Level + 1)
    (hno : ∀ c ∈ n.Children, HasPrefix u c.Url = false) :
    GetChildByUrl n u = .ok
      (⟨n.Url, n.Count, n.Level, n.CallTimestamps, n.Children ++
          [⟨Join ((Split u slash).take (n.Level + 2).toNat) slash, 0, n.Level + 1, [], []⟩]⟩,
        n.Children.length) := by
  rw [GetChildByUrl_of_findChild_none (findChild_none.2 hno),
    CreateChild_ok (by omega) (by omega)]
  rw [show n.Level + 1 + 1 = n.Level + 2 by ring]

/-- Witness for C6: on the root with the single child `/a`, the call with `/b/c`
appends the child `/b` of level 1 and returns the pointer 1 to it; and at the lowest
admitted level, -2, the call with the empty URL appends a child with the empty `Url`
(no piece at all) of level -1. -/
theorem GetChildByUrl_creates_child_witness :
    GetChildByUrl oneChildNode (str "/b/c") = .ok
      (⟨str "/", 1, 0, [5], [⟨str "/a", 1, 1, [5], []⟩, ⟨str "/b", 0, 1, [], []⟩]⟩, 1) ∧
    GetChildByUrl levelMinus2Node (str "") = .ok
      (⟨str "/", 0, -2, [], [⟨str "", 0, -1, [], []⟩]⟩, 0) :=
  ⟨GetChildByUrl_creates_child oneChildNode (str "/b/c")
      (by decide) (by decide) (by simp [oneChildNode]; decide),
    GetChildByUrl_creates_child levelMinus2Node (str "")
      (by decide) (by decide) (by simp [levelMinus2Node])⟩

/-- Claim C7. In the tree built from the fresh root by any sequence of `Add` calls with
arbitrary path strings, no node has two children with the same `Url`. -/
theorem sibling_urls_distinct (logItems : List LogItem) :
    ∃ root, addAll freshRoot logItems = .ok root ∧
      ∀ p m, nodeAt root p = some m →
        m.Children.Pairwise (fun c d => c.Url ≠ d.Url) := by
  obtain ⟨r, hr, hg, -⟩ := addAll_good logItems freshRoot freshRoot_good
  refine ⟨r, hr, fun p m hm => ?_⟩
  have := (hg p m hm).2.2.2
  rwa [List.Nodup, List.pairwise_map] at this

/-- Claim C8. For every tree and every `maxLevel = d ≥ 0`, every node in the list
returned by `flattenTree(root, d)` has `Level ≤ d`. -/
theorem flattenTree_level_le (root : Node) (d : Int) (hd : 0 ≤ d) :
    ∀ m ∈ flattenTree root d, m.Level ≤ d :=
  flatten_level_le_aux d hd root

/-- Witness for C8: the chain of levels 0, 1, 2 flattened with `maxLevel = 1`. -/
theorem flattenTree_level_le_witness :
    (0 : Int) ≤ 1 ∧ (flattenTree chainNode 1).length = 2 ∧
      ∀ m ∈ flattenTree chainNode 1, m.Level ≤ 1 :=
  ⟨by decide, by rfl, flattenTree_level_le chainNode 1 (by decide)⟩

/-- Claim C9. For every tree, `flattenTree(root, -1)` yields every node exactly once:
the length of the result is the number of nodes of the tree, the returned pointers are
valid and pairwise distinct, and every node reachable from the root (by any valid
pointer `p`) occurs in the result. -/
theorem flattenTree_unbounded_all_nodes (root : Node) :
    (flattenTree root (-1)).length = root.size ∧
    (flattenPtrs root (-1)).map (nodeAt root) = (flattenTree root (-1)).map some ∧
    (flattenPtrs root (-1)).Nodup ∧
    ∀ p m, nodeAt root p = some m → p ∈ flattenPtrs root (-1) ∧ m ∈ flattenTree root (-1) := by
  refine ⟨flatten_all_length root, flattenPtrs_deref (-1) root, flattenPtrs_nodup (-1) root, ?_⟩
  intro p m hm
  have hp := flattenPtrs_all_mem root p m hm
  refine ⟨hp, ?_⟩
  have : some m ∈ (flattenPtrs root (-1)).map (nodeAt root) :=
    List.mem_map.2 ⟨p, hp, hm⟩
  rw [flattenPtrs_deref] at this
  simpa using this

/-- Claim C10. For every tree and every `maxLevel`, the list returned by `flattenTree`
is in pre-order: a yielded node (pointer `a`) stands before every yielded node of its
subtrees (pointers `a ++ k :: r`), and for two children `k < l` of one node (pointer
`p`) every yielded node of the subtree of child `k` stands before every yielded node of
the subtree of child `l`. -/
theorem flattenTree_preorder (root : Node) (maxLevel : Int) :
    (flattenPtrs root maxLevel).map (nodeAt root) = (flattenTree root maxLevel).map some ∧
    (∀ (i j : Nat) (a : List Nat) (k : Nat) (r : List Nat),
      (flattenPtrs root maxLevel)[i]? = some a →
      (flattenPtrs root maxLevel)[j]? = some (a ++ k :: r) → i < j) ∧
    (∀ (i j : Nat) (p : List Nat) (k l : Nat) (r s : List Nat),
      (flattenPtrs root maxLevel)[i]? = some (p ++ k :: r) →
      (flattenPtrs root maxLevel)[j]? = some (p ++ l :: s) → k < l → i < j) :=
  ⟨flattenPtrs_deref maxLevel root,
    fun _ _ a k r hi hj => flattenPtrs_index_lt maxLevel root hi hj (ptrBefore_descendant a k r),
    fun _ _ p _ _ r s hi hj hkl =>
      flattenPtrs_index_lt maxLevel root hi hj (ptrBefore_sibling p r s hkl)⟩

/-! ## Timestamp extremes -/

theorem arrayMaxLoop_spec : ∀ (l : List Int) (m : Int) (key : Nat), key ≠ 0 →
    (arrayMaxLoop m key l = m ∨ arrayMaxLoop m key l ∈ l) ∧ m ≤ arrayMaxLoop m key l ∧
      ∀ x ∈ l, x ≤ arrayMaxLoop m key l
  | [], m, key, _ => by simp [arrayMaxLoop]
  | v :: rest, m, key, hk => by
    simp only [arrayMaxLoop, hk, false_or]
    obtain ⟨h1, h2, h3⟩ := arrayMaxLoop_spec rest (if v > m then v else m) (key + 1) (by omega)
    refine ⟨?_, ?_, ?_⟩
    · rcases h1 with h1 | h1
      · by_cases hv : v > m
        · right; rw [h1, if_pos hv]; exact List.mem_cons_self _ _
        · left; rw [h1, if_neg hv]
      · right; exact List.mem_cons_of_mem _ h1
    · refine le_trans ?_ h2
      split <;> omega
    · intro x hx
      rcases List.mem_cons.1 hx with rfl | hx
      · refine le_trans ?_ h2
        split <;> omega
      · exact h3 x hx

theorem arrayMinLoop_spec : ∀ (l : List Int) (m : Int) (key : Nat), key ≠ 0 →
    (arrayMinLoop m key l = m ∨ arrayMinLoop m key l ∈ l) ∧ arrayMinLoop m key l ≤ m ∧
      ∀ x ∈ l, arrayMinLoop m key l ≤ x
  | [], m, key, _ => by simp [arrayMinLoop]
  | v :: rest, m, key, hk => by
    simp only [arrayMinLoop, hk, false_or]
    obtain ⟨h1, h2, h3⟩ := arrayMinLoop_spec rest (if v < m then v else m) (key + 1) (by omega)
    refine ⟨?_, ?_, ?_⟩
    · rcases h1 with h1 | h1
      · by_cases hv : v < m
        · right; rw [h1, if_pos hv]; exact List.mem_cons_self _ _
        · left; rw [h1, if_neg hv]
      · right; exact List.mem_cons_of_mem _ h1
    · refine le_trans h2 ?_
      split <;> omega
    · intro x hx
      rcases List.mem_cons.1 hx with rfl | hx
      · refine le_trans h2 ?_
        split <;> omega
      · exact h3 x hx

theorem ArrayMaxInt64_cons (v : Int) (rest : List Int) :
    ArrayMaxInt64 (v :: rest) ∈ v :: rest ∧ ∀ x ∈ v :: rest, x ≤ ArrayMaxInt64 (v :: rest) := by
  obtain ⟨h1, h2, h3⟩ := arrayMaxLoop_spec rest v 1 (by omega)
  have he : ArrayMaxInt64 (v :: rest) = arrayMaxLoop v 1 rest := by
    simp [ArrayMaxInt64, arrayMaxLoop]
  rw [he]
  refine ⟨?_, ?_⟩
  · rcases h1 with h1 | h1
    · rw [h1]; exact List.mem_cons_self _ _
    · exact List.mem_cons_of_mem _ h1
  · intro x hx
    rcases List.mem_cons.1 hx with rfl | hx
    · exact h2
    · exact h3 x hx

theorem ArrayMinInt64_cons (v : Int) (rest : List Int) :
    ArrayMinInt64 (v :: rest) ∈ v :: rest ∧ ∀ x ∈ v :: rest, ArrayMinInt64 (v :: rest) ≤ x := by
  obtain ⟨h1, h2, h3⟩ := arrayMinLoop_spec rest v 1 (by omega)
  have he : ArrayMinInt64 (v :: rest) = arrayMinLoop v 1 rest := by
    simp [ArrayMinInt64, arrayMinLoop]
  rw [he]
  refine ⟨?_, ?_⟩
  · rcases h1 with h1 | h1
    · rw [h1]; exact List.mem_cons_self _ _
    · exact List.mem_cons_of_mem _ h1
  · intro x hx
    rcases List.mem_cons.1 hx with rfl | hx
    · exact h2
    · exact h3 x hx

/-- Claim C11. `GetFirstCallTimestamp` returns 0 when `CallTimestamps` is empty and
otherwise the maximum of `CallTimestamps`: an element of the list that is at least
every element (500 for the timestamps 500, 100, 300; -3 for -7, -3, -5). -/
theorem GetFirstCallTimestamp_is_max (n : Node) :
    (n.CallTimestamps = [] → GetFirstCallTimestamp n = 0) ∧
    (n.CallTimestamps ≠ [] →
      GetFirstCallTimestamp n ∈ n.CallTimestamps ∧
      ∀ x ∈ n.CallTimestamps, x ≤ GetFirstCallTimestamp n) ∧
    GetFirstCallTimestamp ⟨str "/a", 3, 1, [500, 100, 300], []⟩ = 500 ∧
    GetFirstCallTimestamp ⟨str "/a", 3, 1, [-7, -3, -5], []⟩ = -3 := by
  refine ⟨?_, ?_, by decide, by decide⟩
  · intro h
    simp [GetFirstCallTimestamp, h]
  · intro h
    cases hts : n.CallTimestamps with
    | nil => exact absurd hts h
    | cons v rest =>
      have : GetFirstCallTimestamp n = ArrayMaxInt64 (v :: rest) := by
        simp [GetFirstCallTimestamp, hts]
      rw [this]
      exact ArrayMaxInt64_cons v rest

/-- Claim C12. `GetLastCallTimestamp` returns 0 when `CallTimestamps` is empty and
otherwise the minimum of `CallTimestamps`: an element of the list that is at most
every element (100 for the timestamps 500, 100, 300; -7 for -3, -7, -5). -/
theorem GetLastCallTimestamp_is_min (n : Node) :
    (n.CallTimestamps = [] → GetLastCallTimestamp n = 0) ∧
    (n.CallTimestamps ≠ [] →
      GetLastCallTimestamp n ∈ n.CallTimestamps ∧
      ∀ x ∈ n.CallTimestamps, GetLastCallTimestamp n ≤ x) ∧
    GetLastCallTimestamp ⟨str "/a", 3, 1, [500, 100, 300], []⟩ = 100 ∧
    GetLastCallTimestamp ⟨str "/a", 3, 1, [-3, -7, -5], []⟩ = -7 := by
  refine ⟨?_, ?_, by decide, by decide⟩
  · intro h
    simp [GetLastCallTimestamp, h]
  · intro h
    cases hts : n.CallTimestamps with
    | nil => exact absurd hts h
    | cons v rest =>
      have : GetLastCallTimestamp n = ArrayMinInt64 (v :: rest) := by
        simp [GetLastCallTimestamp, hts]
      rw [this]
      exact ArrayMinInt64_cons v rest

/-- Claim C17 (Scenario B). The fresh root has `Count` 0, `GetFirstCallTimestamp` and
`GetLastCallTimestamp` both return 0 on it, and `flattenTree(root, -1)` is the
one-element list of the root; more generally, for a root (level 0) without children
`flattenTree(root, d)` is `[root]` for every `d`, in particular for `d ≥ 0` and
for `d = -1`. -/
theorem scenarioB_fresh_root :
    freshRoot.Count = 0 ∧ GetFirstCallTimestamp freshRoot = 0 ∧
    GetLastCallTimestamp freshRoot = 0 ∧ flattenTree freshRoot (-1) = [freshRoot] ∧
    flattenPtrs freshRoot (-1) = [[]] ∧
    ∀ (root : Node) (d : Int), root.Level = 0 → root.Children = [] →
      flattenTree root d = [root] ∧ flattenPtrs root d = [[]] := by
  refine ⟨rfl, by decide, by decide, by rfl, by rfl, ?_⟩
  intro root d hl hc
  cases root with
  | mk url cnt lvl ts cs =>
    simp only at hl hc
    subst hl hc
    rw [flattenTree_mk, flattenPtrs_mk]
    have : ¬ (d > -1 ∧ (0 : Int) > d) := by omega
    simp [this, flattenChildren, flattenChildrenPtrs]
/-! ## Every successful `Add` is an `AddStep` -/

theorem AddFuel_step (u : GoString) (t : Int) : ∀ (f : Nat) (n n1 : Node),
    AddFuel f n u t = .ok n1 → AddStep u t n n1 := by
  intro f
  induction f with
  | zero => intro n n1 h; simp [AddFuel] at h
  | succ f ih =>
    intro n n1 h
    simp only [AddFuel] at h
    split at h
    · next hguard =>
      cases hfc : findChild u n.Children with
      | some i =>
        obtain ⟨c, hci, -, -⟩ := findChild_some hfc
        rw [GetChildByUrl_of_findChild_some (n := ⟨_, _, _, _, _⟩) hfc] at h
        simp only [hci] at h
        cases hr : AddFuel f c u t with
        | error e => simp [hr] at h
        | ok c1 =>
          simp only [hr, Except.ok.injEq] at h
          subst h
          exact AddStep.found n i c c1 hguard hfc hci (ih c c1 hr)
      | none =>
        rw [GetChildByUrl_of_findChild_none (n := ⟨_, _, _, _, _⟩) hfc] at h
        by_cases hb : 0 ≤ n.Level + 1 + 1 ∧ n.Level + 1 + 1 ≤ ((Split u slash).length : Int)
        · rw [CreateChild_ok (n := ⟨_, _, _, _, _⟩) hb.1 hb.2] at h
          simp only [List.getElem?_concat_length] at h
          cases hr : AddFuel f
              ⟨Join ((Split u slash).take (n.Level + 1 + 1).toNat) slash, 0, n.Level + 1, [], []⟩
              u t with
          | error e => simp [hr] at h
          | ok c1 =>
            simp only [hr, Except.ok.injEq, set_concat_length] at h
            subst h
            exact AddStep.created n c1 hguard hfc hb.1 (ih _ c1 hr)
        · unfold CreateChild at h
          simp only [hb, if_false] at h
          cases h
    · simp only [Except.ok.injEq] at h
      subst h
      exact AddStep.stop n (by assumption)

theorem Add_step {n n1 : Node} {u : GoString} {t : Int} (h : Add n u t = .ok n1) :
    AddStep u t n n1 :=
  AddFuel_step u t _ n n1 h

theorem AddStep_fields {u : GoString} {t : Int} {n n1 : Node} (h : AddStep u t n n1) :
    n1.Url = n.Url ∧ n1.Level = n.Level ∧ n1.Count = n.Count + 1 ∧
      n1.CallTimestamps = n.CallTimestamps ++ [t] := by
  cases h <;> exact ⟨rfl, rfl, rfl, rfl⟩

theorem fresh_good (url : GoString) (lvl : Int) (h : 0 ≤ lvl) :
    (⟨url, 0, lvl, [], []⟩ : Node).All Local := by
  rw [All_iff]
  exact ⟨⟨by simp, h, by simp, by simp⟩, by simp⟩

/-- An invariant `I` that every `AddStep` on a tree with the invariant `Local` keeps, holds
after the insertion loop, which succeeds. -/
theorem addAll_inv (I : Node → Prop)
    (hI : ∀ u t n n1, AddStep u t n n1 → n.All Local → I n → I n1) (xs : List LogItem) :
    ∀ n : Node, n.All Local → I n → ∃ n1, addAll n xs = .ok n1 ∧ n1.All Local ∧ I n1 := by
  induction xs with
  | nil => intro n h hi; exact ⟨n, rfl, h, hi⟩
  | cons x xs ih =>
    intro n h hi
    obtain ⟨n1, h1, hg1, -⟩ := Add_good x.Url x.UnixTimestamp h
    obtain ⟨n2, h2, hg2, hi2⟩ := ih n1 hg1 (hI _ _ n n1 (Add_step h1) h hi)
    exact ⟨n2, by simp [addAll, h1, h2], hg2, hi2⟩

/-- Claim C13. `Add` is total on built trees: on the tree built from the fresh root by any
sequence of `Add` calls, `Add` returns without a fault for every path string and every
timestamp; and at every node of a built tree where the guard of `Add` holds for the
path, the slice expression of `CreateChild` is within bounds (`CreateChild` succeeds). -/
theorem Add_total_on_built (logItems : List LogItem) (u : GoString) (t : Int) :
    ∃ root, addAll freshRoot logItems = .ok root ∧
      (∃ root1, Add root u t = .ok root1) ∧
      ∀ p m, nodeAt root p = some m → ((Split u slash).length : Int) > m.Level + 1 →
        ∃ r, CreateChild m u = .ok r := by
  obtain ⟨r, hr, hg, -⟩ := addAll_good logItems freshRoot freshRoot_good
  obtain ⟨r1, hr1, -⟩ := Add_good u t hg
  refine ⟨r, hr, ⟨r1, hr1⟩, ?_⟩
  intro p m hm hguard
  have hl : 0 ≤ m.Level := (hg p m hm).2.1
  exact ⟨_, CreateChild_ok (by omega) (by omega)⟩

/-- Counterexample to C14 as stated: on the path `/` the call `Add` on the fresh root does
descend; it creates a child, so the result is not the root-only tree. -/
theorem Add_root_path_creates_child :
    Add freshRoot (str "/") 7
        = .ok ⟨str "/", 1, 0, [7], [⟨str "/", 1, 1, [7], []⟩]⟩ ∧
      Add freshRoot (str "/") 7 ≠ .ok ⟨str "/", 1, 0, [7], []⟩ := by
  have h : Add freshRoot (str "/") 7
      = .ok ⟨str "/", 1, 0, [7], [⟨str "/", 1, 1, [7], []⟩]⟩ := by rfl
  refine ⟨h, ?_⟩
  rw [h]
  intro hc
  simp at hc

/-- Claim C14, amended. On the empty path `Add` on the fresh root records the
observation at the root only: count 1, the timestamp appended, no child.  On the path
`/`, whose split has two (empty) pieces, `Add` records the observation at the root and
descends once: it creates one child with `Url` `/`, level 1, count 1 and the
timestamp. -/
theorem Add_degenerate_paths (t : Int) :
    Add freshRoot (str "") t = .ok ⟨str "/", 1, 0, [t], []⟩ ∧
    Add freshRoot (str "/") t = .ok ⟨str "/", 1, 0, [t], [⟨str "/", 1, 1, [t], []⟩]⟩ := by
  exact ⟨by rfl, by rfl⟩

/-- Claim C16. Prefix matching misroutes across a segment boundary: after
`Add("/ab", t1)` and `Add("/abc", t2)` on a fresh root, the root has exactly one child,
with `Url` `/ab`, count 2 and timestamps `[t1, t2]`, and no node of the tree has the
`Url` `/abc`. -/
theorem prefix_misroute_ab_abc (t1 t2 : Int) :
    ∃ root, addAll freshRoot [⟨str "/ab", t1⟩, ⟨str "/abc", t2⟩] = .ok root ∧
      root.Children = [⟨str "/ab", 2, 1, [t1, t2], []⟩] ∧
      ∀ p m, nodeAt root p = some m → m.Url ≠ str "/abc" := by
  have h1 : Add freshRoot (str "/ab") t1
      = .ok ⟨str "/", 1, 0, [t1], [⟨str "/ab", 1, 1, [t1], []⟩]⟩ := by rfl
  have h2 : Add ⟨str "/", 1, 0, [t1], [⟨str "/ab", 1, 1, [t1], []⟩]⟩ (str "/abc") t2
      = .ok ⟨str "/", 2, 0, [t1, t2], [⟨str "/ab", 2, 1, [t1, t2], []⟩]⟩ := by rfl
  refine ⟨⟨str "/", 2, 0, [t1, t2], [⟨str "/ab", 2, 1, [t1, t2], []⟩]⟩,
    by simp only [addAll, h1, h2], rfl, ?_⟩
  intro p m hm
  match p, hm with
  | [], hm =>
    simp only [nodeAt, Option.some.injEq] at hm
    subst hm
    show str "/" ≠ str "/abc"
    decide
  | 0 :: [], hm =>
    simp only [nodeAt, List.getElem?_cons_zero, Option.some.injEq] at hm
    subst hm
    show str "/ab" ≠ str "/abc"
    decide
  | 0 :: (j :: rest), hm => simp [nodeAt] at hm
  | (i + 1) :: rest, hm => simp [nodeAt] at hm
/-! ## Splitting a joined list of pieces -/

theorem Split_of_not_mem (sep : UInt8) : ∀ s : GoString, sep ∉ s → Split s sep = [s]
  | [], _ => by simp [Split]
  | c :: cs, h => by
    have hc : ¬ c = sep := fun e => h (by simp [e])
    have hcs : sep ∉ cs := fun e => h (List.mem_cons_of_mem _ e)
    rw [Split, if_neg hc, Split_of_not_mem sep cs hcs]

theorem Split_append_sep (sep : UInt8) (x : GoString) :
    ∀ s : GoString, sep ∉ s → Split (s ++ sep :: x) sep = s :: Split x sep
  | [], _ => by simp [Split]
  | c :: cs, h => by
    have hc : ¬ c = sep := fun e => h (by simp [e])
    have hcs : sep ∉ cs := fun e => h (List.mem_cons_of_mem _ e)
    rw [List.cons_append, Split, if_neg hc, Split_append_sep sep x cs hcs]

theorem Split_piece_not_mem (sep : UInt8) : ∀ s : GoString, ∀ p ∈ Split s sep, sep ∉ p
  | [], p, hp => by
    simp [Split] at hp
    subst hp
    simp
  | c :: cs, p, hp => by
    rw [Split] at hp
    split at hp
    · rcases List.mem_cons.1 hp with rfl | hp
      · simp
      · exact Split_piece_not_mem sep cs p hp
    · next hc =>
      cases hs : Split cs sep with
      | nil => exact absurd hs (Split_ne_nil _ _)
      | cons q qs =>
        rw [hs] at hp
        simp only [List.mem_cons] at hp
        rcases hp with rfl | hp
        · intro hmem
          rcases List.mem_cons.1 hmem with e | hmem
          · exact hc e.symm
          · exact Split_piece_not_mem sep cs q (by simp [hs]) hmem
        · exact Split_piece_not_mem sep cs p (by simp [hs, hp])

theorem Split_Join (sep : UInt8) : ∀ l : List GoString, l ≠ [] → (∀ p ∈ l, sep ∉ p) →
    Split (Join l sep) sep = l
  | [], h, _ => absurd rfl h
  | [s], _, hp => by
    rw [Join]
    exact Split_of_not_mem sep s (hp s (by simp))
  | s :: t :: rest, _, hp => by
    rw [Join, Split_append_sep sep _ s (hp s (by simp)),
      Split_Join sep (t :: rest) (by simp) (fun p h => hp p (List.mem_cons_of_mem _ h))]

/-- The `Url` that `CreateChild` builds at level `lvl + 1` splits into `lvl + 2` pieces. -/
theorem Split_created_url_length (u : GoString) (lvl : Int) (h0 : 0 ≤ lvl)
    (h1 : ((Split u slash).length : Int) > lvl + 1) :
    ((Split (Join ((Split u slash).take (lvl + 1 + 1).toNat) slash) slash).length : Int)
      = lvl + 1 + 1 := by
  rw [Split_Join]
  · rw [List.length_take]
    omega
  · intro h
    have := congrArg List.length h
    rw [List.length_take, List.length_nil] at this
    omega
  · intro p hp
    exact Split_piece_not_mem slash u p (List.mem_of_mem_take hp)

/-! ## Further invariants of built trees -/

theorem AddStep_urlPieces {u : GoString} {t : Int} {n n1 : Node} (h : AddStep u t n n1) :
    n.All Local →
    n.All (fun m => ∀ c ∈ m.Children, ((Split c.Url slash).length : Int) = c.Level + 1) →
    n1.All (fun m => ∀ c ∈ m.Children, ((Split c.Url slash).length : Int) = c.Level + 1) := by
  induction h with
  | stop n hg =>
    intro _ hI
    rw [All_iff] at hI ⊢
    exact hI
  | found n i c c1 hg hf hc hs ih =>
    intro hL hI
    obtain ⟨hl0, hlk⟩ := (All_iff _ n).1 hL
    obtain ⟨hi0, hik⟩ := (All_iff _ n).1 hI
    have hcm := List.getElem?_mem hc
    obtain ⟨hu, hlv, -, -⟩ := AddStep_fields hs
    rw [All_iff]
    refine ⟨?_, ?_⟩
    · intro d hd
      rcases List.mem_or_eq_of_mem_set hd with hd | rfl
      · exact hi0 d hd
      · rw [hu, hlv]; exact hi0 c hcm
    · intro d hd
      rcases List.mem_or_eq_of_mem_set hd with hd | rfl
      · exact hik d hd
      · exact ih (hlk c hcm) (hik c hcm)
  | created n c1 hg hf h0 hs ih =>
    intro hL hI
    obtain ⟨hl0, hlk⟩ := (All_iff _ n).1 hL
    obtain ⟨hi0, hik⟩ := (All_iff _ n).1 hI
    obtain ⟨hu, hlv, -, -⟩ := AddStep_fields hs
    rw [All_iff]
    refine ⟨?_, ?_⟩
    · intro d hd
      rcases List.mem_append.1 hd with hd | hd
      · exact hi0 d hd
      · simp only [List.mem_singleton] at hd
        subst hd
        rw [hu, hlv]
        exact Split_created_url_length u n.Level hl0.2.1 hg
    · intro d hd
      rcases List.mem_append.1 hd with hd | hd
      · exact hik d hd
      · simp only [List.mem_singleton] at hd
        subst hd
        refine ih (fresh_good _ _ (by have := hl0.2.1; omega)) ?_
        rw [All_iff]
        exact ⟨by simp, by simp⟩

theorem sum_map_set {l : List Node} {i : Nat} {c c1 : Node} (h : l[i]? = some c) :
    ((l.set i c1).map Node.Count).sum = (l.map Node.Count).sum - c.Count + c1.Count := by
  induction l generalizing i with
  | nil => simp at h
  | cons x xs ih =>
    cases i with
    | zero =>
      simp at h
      subst h
      simp
      ring
    | succ i =>
      simp at h
      simp only [List.set_cons_succ, List.map_cons, List.sum_cons, ih h]
      ring

theorem AddStep_countSum {u : GoString} {t : Int} {n n1 : Node} (h : AddStep u t n n1) :
    n.All (fun m => 0 ≤ m.Count ∧ (m.Children.map Node.Count).sum ≤ m.Count) →
    n1.All (fun m => 0 ≤ m.Count ∧ (m.Children.map Node.Count).sum ≤ m.Count) := by
  induction h with
  | stop n hg =>
    intro hI
    rw [All_iff] at hI ⊢
    refine ⟨⟨?_, ?_⟩, hI.2⟩
    · have := hI.1.1; simp only; omega
    · have := hI.1.2; simp only; omega
  | found n i c c1 hg hf hc hs ih =>
    intro hI
    obtain ⟨hi0, hik⟩ := (All_iff _ n).1 hI
    have hcm := List.getElem?_mem hc
    obtain ⟨-, -, hcnt, -⟩ := AddStep_fields hs
    rw [All_iff]
    refine ⟨⟨?_, ?_⟩, ?_⟩
    · have := hi0.1; simp only; omega
    · have := hi0.2
      simp only [sum_map_set hc, hcnt]
      omega
    · intro d hd
      rcases List.mem_or_eq_of_mem_set hd with hd | rfl
      · exact hik d hd
      · exact ih (hik c hcm)
  | created n c1 hg hf h0 hs ih =>
    intro hI
    obtain ⟨hi0, hik⟩ := (All_iff _ n).1 hI
    obtain ⟨-, -, hcnt, -⟩ := AddStep_fields hs
    rw [All_iff]
    refine ⟨⟨?_, ?_⟩, ?_⟩
    · have := hi0.1; simp only; omega
    · have := hi0.2
      simp only [List.map_append, List.sum_append, List.map_cons, List.map_nil,
        List.sum_cons, List.sum_nil, hcnt]
      omega
    · intro d hd
      rcases List.mem_append.1 hd with hd | hd
      · exact hik d hd
      · simp only [List.mem_singleton] at hd
        subst hd
        refine ih ?_
        rw [All_iff]
        exact ⟨by simp, by simp⟩

theorem nodeAt_append : ∀ (p q : List Nat) (n m : Node), nodeAt n p = some m →
    nodeAt n (p ++ q) = nodeAt m q
  | [], q, n, m, h => by
    simp only [nodeAt, Option.some.injEq] at h
    subst h
    rfl
  | i :: rest, q, n, m, h => by
    simp only [nodeAt, List.cons_append] at h ⊢
    cases hc : n.Children[i]? with
    | none => simp [hc] at h
    | some c =>
      simp only [hc] at h ⊢
      exact nodeAt_append rest q c m h

/-- A node reached by a non-empty pointer is a child of a node of the tree. -/
theorem nodeAt_child : ∀ (p : List Nat) (n m : Node), p ≠ [] → nodeAt n p = some m →
    ∃ q parent, nodeAt n q = some parent ∧ m ∈ parent.Children
  | [], _, _, h, _ => absurd rfl h
  | i :: rest, n, m, _, hm => by
    simp only [nodeAt] at hm
    cases hc : n.Children[i]? with
    | none => simp [hc] at hm
    | some c =>
      simp only [hc] at hm
      by_cases hr : rest = []
      · subst hr
        simp only [nodeAt, Option.some.injEq] at hm
        subst hm
        exact ⟨[], n, rfl, List.getElem?_mem hc⟩
      · obtain ⟨q, parent, hq, hmem⟩ := nodeAt_child rest c m hr hm
        exact ⟨i :: q, parent, by simp [nodeAt, hc, hq], hmem⟩

/-- Claim C15. In the tree built from the fresh root by any sequence of `Add` calls, the
`Url` of every non-root node (a node reached by a non-empty pointer) splits on `/` into
exactly `Level + 1` pieces. -/
theorem url_pieces_eq_level_succ (logItems : List LogItem) :
    ∃ root, addAll freshRoot logItems = .ok root ∧
      ∀ p m, p ≠ [] → nodeAt root p = some m →
        ((Split m.Url slash).length : Int) = m.Level + 1 := by
  obtain ⟨r, hr, -, hI⟩ := addAll_inv
    (fun n => n.All (fun m => ∀ c ∈ m.Children, ((Split c.Url slash).length : Int) = c.Level + 1))
    (fun _ _ _ _ hs hL hI => AddStep_urlPieces hs hL hI) logItems freshRoot freshRoot_good
    (by
      show Node.All _ freshRoot
      rw [All_iff]
      exact ⟨by simp [freshRoot], by simp [freshRoot]⟩)
  refine ⟨r, hr, ?_⟩
  intro p m hp hm
  obtain ⟨q, parent, hq, hmem⟩ := nodeAt_child p r m hp hm
  exact hI q parent hq m hmem

/-- Claim C20. In the tree built from the fresh root by any sequence of `Add` calls, at
every node the sum of the children's counts is at most the node's own count, and hence
each child's count is at most its parent's. -/
theorem children_count_sum_le (logItems : List LogItem) :
    ∃ root, addAll freshRoot logItems = .ok root ∧
      ∀ p m, nodeAt root p = some m →
        (m.Children.map Node.Count).sum ≤ m.Count ∧ ∀ c ∈ m.Children, c.Count ≤ m.Count := by
  obtain ⟨r, hr, -, hI⟩ := addAll_inv
    (fun n => n.All (fun m => 0 ≤ m.Count ∧ (m.Children.map Node.Count).sum ≤ m.Count))
    (fun _ _ _ _ hs _ hI => AddStep_countSum hs hI) logItems freshRoot freshRoot_good
    (by
      show Node.All _ freshRoot
      rw [All_iff]
      exact ⟨by simp [freshRoot], by simp [freshRoot]⟩)
  refine ⟨r, hr, ?_⟩
  intro p m hm
  have hsum := (hI p m hm).2
  refine ⟨hsum, ?_⟩
  intro c hc
  have hkids := ((All_iff _ m).1 (fun a x hx => hI (p ++ a) x ?_)).2
  · have hnn : ∀ x ∈ m.Children.map Node.Count, 0 ≤ x := by
      intro x hx
      obtain ⟨d, hd, rfl⟩ := List.mem_map.1 hx
      exact ((All_iff _ d).1 (hkids d hd)).1.1
    exact le_trans (List.single_le_sum hnn _ (List.mem_map_of_mem _ hc)) hsum
  · rw [nodeAt_append p a r m hm]
    exact hx
/-! ## Pruning and filtering -/

/-- In a tree with the level invariant a node reached by the pointer `p` lies
`p.length` levels below the root of the tree. -/
theorem nodeAt_level : ∀ (p : List Nat) (n m : Node), n.All Local → nodeAt n p = some m →
    m.Level = n.Level + p.length
  | [], n, m, _, h => by
    simp only [nodeAt, Option.some.injEq] at h
    subst h
    simp
  | i :: rest, n, m, hL, h => by
    simp only [nodeAt] at h
    cases hc : n.Children[i]? with
    | none => simp [hc] at h
    | some c =>
      simp only [hc] at h
      obtain ⟨hl0, hlk⟩ := (All_iff _ n).1 hL
      have hcm := List.getElem?_mem hc
      have := nodeAt_level rest c m (hlk c hcm) h
      rw [this, hl0.2.2.1 c hcm]
      simp only [List.length_cons]
      push_cast
      ring

theorem flatten_all_level_ge {n : Node} (hL : n.All Local) :
    ∀ m ∈ flattenTree n (-1), n.Level ≤ m.Level := by
  intro m hm
  have h1 : some m ∈ (flattenTree n (-1)).map some := List.mem_map_of_mem _ hm
  rw [← flattenPtrs_deref] at h1
  obtain ⟨p, -, hp⟩ := List.mem_map.1 h1
  rw [nodeAt_level p n m hL hp]
  omega

theorem flatten_prune_eq_filter (d : Int) (hd : 0 ≤ d) (n : Node) :
    n.All Local →
    flattenTree n d = (flattenTree n (-1)).filter (fun m => decide (m.Level ≤ d)) := by
  refine Node.induct2
    (P := fun n => n.All Local →
      flattenTree n d = (flattenTree n (-1)).filter (fun m => decide (m.Level ≤ d)))
    (Q := fun cs => (∀ c ∈ cs, c.All Local) →
      flattenChildren cs d = (flattenChildren cs (-1)).filter (fun m => decide (m.Level ≤ d)))
    ?_ ?_ ?_ n
  · intro url cnt lvl ts cs ih hL
    have hall := flatten_all_level_ge hL
    rw [flattenTree_mk] at hall
    rw [if_neg (by omega)] at hall
    rw [flattenTree_mk, flattenTree_mk, if_neg (show ¬ ((-1 : Int) > -1 ∧ lvl > -1) by omega)]
    by_cases hlv : lvl > d
    · rw [if_pos ⟨by omega, hlv⟩]
      symm
      rw [List.filter_eq_nil_iff]
      intro m hm
      have := hall m hm
      simp only [decide_eq_true_eq]
      simp only at this
      omega
    · rw [if_neg (by omega), List.filter_cons]
      simp only [decide_eq_true_eq]
      rw [if_pos (by omega), ih ((All_iff _ _).1 hL).2]
  · intro _; simp [flattenChildren]
  · intro c cs ihc ihcs h
    simp only [flattenChildren, List.filter_append]
    rw [ihc (h c (by simp)), ihcs (fun x hx => h x (List.mem_cons_of_mem _ hx))]

/-- Claim C18. On the tree built from the fresh root by any sequence of `Add` calls and
for every `d ≥ 0`, pruning equals filtering: `flattenTree(root, d)` is the list
`flattenTree(root, -1)` restricted to the nodes of level at most `d`, in the same
order. -/
theorem flattenTree_prune_eq_filter (logItems : List LogItem) (d : Int) (hd : 0 ≤ d) :
    ∃ root, addAll freshRoot logItems = .ok root ∧
      flattenTree root d = (flattenTree root (-1)).filter (fun m => decide (m.Level ≤ d)) := by
  obtain ⟨r, hr, hg, -⟩ := addAll_good logItems freshRoot freshRoot_good
  exact ⟨r, hr, flatten_prune_eq_filter d hd r hg⟩

/-- Witness for C18: Scenario A with `d = 1`. -/
theorem flattenTree_prune_eq_filter_witness :
    ∃ root, addAll freshRoot [⟨str "/a", 100⟩, ⟨str "/a/b", 200⟩, ⟨str "/a/b/c", 300⟩]
        = .ok root ∧
      flattenTree root 1 = (flattenTree root (-1)).filter (fun m => decide (m.Level ≤ 1)) :=
  flattenTree_prune_eq_filter [⟨str "/a", 100⟩, ⟨str "/a/b", 200⟩, ⟨str "/a/b/c", 300⟩] 1
    (by decide)
/-! ## The nodes one `Add` touches -/

theorem totalCount_eq (n : Node) : n.totalCount = n.Count + totalCountList n.Children := by
  cases n with
  | mk u c l ts cs => simp [Node.totalCount]

theorem totalCountList_set {l : List Node} {i : Nat} {c c1 : Node} (h : l[i]? = some c) :
    totalCountList (l.set i c1) = totalCountList l - c.totalCount + c1.totalCount := by
  induction l generalizing i with
  | nil => simp at h
  | cons x xs ih =>
    cases i with
    | zero =>
      simp at h
      subst h
      simp only [List.set_cons_zero, totalCountList]
      ring
    | succ i =>
      simp at h
      simp only [List.set_cons_succ, totalCountList, ih h]
      ring

theorem totalCountList_concat (l : List Node) (c1 : Node) :
    totalCountList (l ++ [c1]) = totalCountList l + c1.totalCount := by
  induction l with
  | nil => simp [totalCountList]
  | cons x xs ih =>
    rw [List.cons_append]
    simp only [totalCountList]
    rw [ih]
    ring

/-- One `Add` on a tree with the level invariant, started at a node that is not deeper
than the path, touches exactly the nodes along one pointer `ptr`: every prefix of `ptr`
leads to a node whose count grew by one and whose timestamps got `t` appended (a node
that did not exist before has count 1 and the timestamps `[t]`), and every other pointer
leads to what it led to before. -/
theorem AddStep_trace {u : GoString} {t : Int} {n n1 : Node} (h : AddStep u t n n1) :
    n.All Local → n.Level + 1 ≤ ((Split u slash).length : Int) →
    ∃ ptr : List Nat, (ptr.length : Int) + n.Level + 1 = ((Split u slash).length : Int) ∧
      (∀ q, q <+: ptr → ∃ m1, nodeAt n1 q = some m1 ∧
        (∀ m, nodeAt n q = some m →
          m1.Count = m.Count + 1 ∧ m1.CallTimestamps = m.CallTimestamps ++ [t]) ∧
        (nodeAt n q = none → m1.Count = 1 ∧ m1.CallTimestamps = [t])) ∧
      (∀ q, ¬ q <+: ptr → nodeAt n1 q = nodeAt n q) ∧
      n1.totalCount = n.totalCount + ptr.length + 1 := by
  induction h with
  | stop n hg =>
    intro _ hlen
    refine ⟨[], by simp only [List.length_nil]; push_cast; omega, ?_, ?_, ?_⟩
    · intro q hq
      rw [List.prefix_nil] at hq
      subst hq
      refine ⟨_, rfl, ?_, ?_⟩
      · intro m hm
        simp only [nodeAt, Option.some.injEq] at hm
        subst hm
        exact ⟨rfl, rfl⟩
      · intro hnone
        simp [nodeAt] at hnone
    · intro q hq
      cases q with
      | nil => exact absurd (List.prefix_refl _) hq
      | cons j q1 => simp only [nodeAt]
    · rw [totalCount_eq, totalCount_eq n]
      simp only [List.length_nil]
      push_cast
      ring
  | found n i c c1 hg hf hc hs ih =>
    intro hL _
    obtain ⟨hl0, hlk⟩ := (All_iff _ n).1 hL
    have hcm := List.getElem?_mem hc
    have hcl : c.Level = n.Level + 1 := hl0.2.2.1 c hcm
    have hi : i < n.Children.length := (List.getElem?_eq_some.1 hc).1
    obtain ⟨ptr, hlen, hT, hU, hS⟩ := ih (hlk c hcm) (by omega)
    refine ⟨i :: ptr, by simp only [List.length_cons]; push_cast; omega, ?_, ?_, ?_⟩
    · intro q hq
      cases q with
      | nil =>
        refine ⟨_, rfl, ?_, ?_⟩
        · intro m hm
          simp only [nodeAt, Option.some.injEq] at hm
          subst hm
          exact ⟨rfl, rfl⟩
        · intro hnone
          simp [nodeAt] at hnone
      | cons j q1 =>
        obtain ⟨rfl, hq1⟩ := List.cons_prefix_cons.1 hq
        simp only [nodeAt, List.getElem?_set_self hi, hc]
        exact hT q1 hq1
    · intro q hq
      cases q with
      | nil => exact absurd List.nil_prefix hq
      | cons j q1 =>
        by_cases hj : i = j
        · subst hj
          have hq1 : ¬ q1 <+: ptr := fun hp => hq (List.cons_prefix_cons.2 ⟨rfl, hp⟩)
          simp only [nodeAt, List.getElem?_set_self hi, hc]
          exact hU q1 hq1
        · simp only [nodeAt, List.getElem?_set_ne hj]
    · rw [totalCount_eq, totalCount_eq n]
      simp only [totalCountList_set hc, hS, List.length_cons]
      push_cast
      ring
  | created n c1 hg hf h0 hs ih =>
    intro hL _
    obtain ⟨hl0, -⟩ := (All_iff _ n).1 hL
    obtain ⟨ptr, hlen, hT, hU, hS⟩ :=
      ih (fresh_good _ _ (by have := hl0.2.1; omega)) (by simp only; omega)
    have hfresh : ∀ q1 : List Nat, q1 ≠ [] → nodeAt
        (⟨Join ((Split u slash).take (n.Level + 1 + 1).toNat) slash, 0, n.Level + 1, [], []⟩ :
          Node) q1 = none := by
      intro q1 hq1
      cases q1 with
      | nil => exact absurd rfl hq1
      | cons a b => simp [nodeAt]
    refine ⟨n.Children.length :: ptr, by
      simp only [List.length_cons]; push_cast; simp only at hlen; omega, ?_, ?_, ?_⟩
    · intro q hq
      cases q with
      | nil =>
        refine ⟨_, rfl, ?_, ?_⟩
        · intro m hm
          simp only [nodeAt, Option.some.injEq] at hm
          subst hm
          exact ⟨rfl, rfl⟩
        · intro hnone
          simp [nodeAt] at hnone
      | cons j q1 =>
        obtain ⟨rfl, hq1⟩ := List.cons_prefix_cons.1 hq
        obtain ⟨m1, hm1, hold, hnew⟩ := hT q1 hq1
        refine ⟨m1, by simp only [nodeAt, List.getElem?_concat_length]; exact hm1, ?_, ?_⟩
        · intro m hm
          simp [nodeAt] at hm
        · intro _
          by_cases hq0 : q1 = []
          · subst hq0
            have := hold _ rfl
            simpa using this
          · exact hnew (hfresh q1 hq0)
    · intro q hq
      cases q with
      | nil => exact absurd List.nil_prefix hq
      | cons j q1 =>
        rcases Nat.lt_trichotomy j n.Children.length with hj | hj | hj
        · simp only [nodeAt, List.getElem?_append_left hj]
        · subst hj
          have hq1 : ¬ q1 <+: ptr := fun hp => hq (List.cons_prefix_cons.2 ⟨rfl, hp⟩)
          have hq0 : q1 ≠ [] := fun e => hq1 (e ▸ List.nil_prefix)
          simp only [nodeAt, List.getElem?_concat_length]
          rw [hU q1 hq1, hfresh q1 hq0]
          simp
        · have h1 : (n.Children ++ [c1])[j]? = none :=
            List.getElem?_eq_none (by simp; omega)
          have h2 : n.Children[j]? = none := List.getElem?_eq_none (by omega)
          simp only [nodeAt, h1, h2]
    · rw [totalCount_eq, totalCount_eq n]
      simp only [totalCountList_concat, hS, List.length_cons]
      rw [totalCount_eq]
      simp only [totalCountList]
      push_cast
      ring

/-- Claim C19. On the tree built from the fresh root by any sequence of `Add` calls, for
a path that splits into `k` pieces, `Add(p, t)` on the root touches exactly the `k`
nodes along one pointer `ptr` of length `k - 1`: after the call every prefix `q` of
`ptr` leads to a node of level `q.length` (one node at each level `0, ..., k - 1`)
whose count grew by one and whose timestamps got `t` appended (a node created by the
call has count 1 and timestamps `[t]`); every other pointer leads to what it led to
before; and the sum of the counts of all nodes grows by exactly `k`. -/
theorem Add_touches_one_node_per_level (logItems : List LogItem) (u : GoString) (t : Int) :
    ∃ root root1 ptr, addAll freshRoot logItems = .ok root ∧ Add root u t = .ok root1 ∧
      ptr.length + 1 = (Split u slash).length ∧
      (∀ q, q <+: ptr → ∃ m1, nodeAt root1 q = some m1 ∧ m1.Level = q.length ∧
        (∀ m, nodeAt root q = some m →
          m1.Count = m.Count + 1 ∧ m1.CallTimestamps = m.CallTimestamps ++ [t]) ∧
        (nodeAt root q = none → m1.Count = 1 ∧ m1.CallTimestamps = [t])) ∧
      (∀ q, ¬ q <+: ptr → nodeAt root1 q = nodeAt root q) ∧
      root1.totalCount = root.totalCount + (Split u slash).length := by
  obtain ⟨r, hr, hg, -, hl, -⟩ := addAll_good logItems freshRoot freshRoot_good
  obtain ⟨r1, hr1, hg1, -, hl1, -⟩ := Add_good u t hg
  have hlr : r.Level = 0 := by simpa [freshRoot] using hl
  have hne : 1 ≤ (Split u slash).length := by
    cases hs : Split u slash with
    | nil => exact absurd hs (Split_ne_nil _ _)
    | cons a b => simp
  obtain ⟨ptr, hlen, hT, hU, hS⟩ := AddStep_trace (Add_step hr1) hg (by omega)
  refine ⟨r, r1, ptr, hr, hr1, by omega, ?_, hU, ?_⟩
  · intro q hq
    obtain ⟨m1, hm1, hold, hnew⟩ := hT q hq
    refine ⟨m1, hm1, ?_, hold, hnew⟩
    rw [nodeAt_level q r1 m1 hg1 hm1, hl1, hlr]
    simp
  · rw [hS]
    omega

end LogMatrix
